import Mathlib

/-!
A shallow embedding of `src/DPLL.ipynb` (repository Roiman/DPLL_Example).

The notebook implements a DPLL satisfiability test:

* `Literal` — a name (Python `str`) plus a sign; `__hash__` and `__eq__`
  ignore the sign, so dictionaries, sets and the model are keyed by name
  alone, and `__lt__` compares the names as strings.
* `clauseSatisfied(clause, model)` — three-valued clause evaluation,
  returning Python `True` / `None` / `False`; embedded below as
  `Option Bool` (`some true` / `none` / `some false`).
* `DPLLSatisfiable(kb)` — one pass over the kb building an occurrence
  count per symbol (`symbols_ranking`, a `defaultdict` keyed by literal,
  i.e. by name), the set of signs seen per symbol (`pure_symbols`), and
  `unit_clauses`; then a heap of `((QueueImportance, -count), literal)`
  entries and a model mapping every symbol to `'Free'`; finally it calls
  the recursive `DPLL`.
* `DPLL(clauses, symbols, model)` — evaluates each clause, collecting
  pending ones, then branches on the popped symbol, mutating the shared
  model and heap in place.

Modelling decisions, each forced by the Python semantics:

* Python dictionaries are embedded as insertion-ordered association
  lists (`modelSet` updates in place, appending absent keys at the end,
  exactly like `dict.__setitem__`).
* The model values are `'Free'` (a string), `True` and `False` (booleans);
  they form the three-valued `TruthState`.
* `QueueImportance` is a plain `Enum`: equality of members is fine, but
  `<` between two distinct members raises `TypeError`.  `heapq` compares
  entries lazily — two entries with equal `(class, -count)` keys fall
  through to `Literal.__lt__`, two entries with equal classes compare the
  negated counts, and two entries with distinct classes raise.  Since all
  symbol names in the heap are distinct, the comparison is a strict total
  order whenever all entries share one class, and a binary heap with a
  strict total order is observationally a sorted list: `heappush` is
  ordered insertion and `heappop` takes the head.  Both `heapq` and the
  sorted list raise `TypeError` at the first push that mixes classes
  (the fresh entry is immediately compared against an entry of the other
  class), and neither raises while the entries are class-homogeneous, so
  the sorted-list embedding (`heapPush`, fallible via `Except`) has the
  same observable behaviour, crashes included.
* Python `set` iteration order is hash-dependent; the embedding iterates
  clauses in construction order.  Every statement proved below is
  insensitive to this order (single-symbol clauses, order-independent
  clause evaluation, or a crash that happens at the first cross-class
  heap push whatever the order).
* The recursion in `DPLL` is fuelled: the caller supplies
  `symbols.length + 1` fuel, and `DPLL_no_fuel_error` proves that this
  fuel is never exhausted, so the fuelled function is total on the
  states the program reaches.
* All functions are pure; the in-place mutation of `model`, `symbols`
  and (never) `clauses` is made explicit by returning the final state of
  each of those three objects next to the Python return value.
-/

namespace DPLLExample

/-- Model values in the notebook: the strings `'Free'` and the Python
booleans `True` / `False` stored by `model[P] = True` etc. -/
inductive TruthState where
  | true
  | false
  | free
deriving DecidableEq, Repr

/-- The notebook's `Literal` class: a string name and a sign.  `__eq__`
and `__hash__` ignore the sign; `__lt__` compares names as strings. -/
structure Literal where
  name : String
  sign : Bool
deriving DecidableEq, Repr

/-- A clause: a Python set of literals, embedded as the list of its
elements in insertion order (element identity is by name). -/
abbrev Clause := List Literal

/-- The model: a Python dict keyed by literal (hence by name), embedded
as an insertion-ordered association list. -/
abbrev Model := List (String × TruthState)

/-- Python `literal in model` / `model[literal]`: dict lookup keyed by
the literal's hash and `__eq__`, i.e. by its name. -/
def modelLookup : Model → String → Option TruthState
  | [], _ => none
  | (k, v) :: rest, n => if k = n then some v else modelLookup rest n

/-- Python `model[literal] = v`: in-place dict update.  An existing key
keeps its position; an absent key is appended at the end. -/
def modelSet : Model → String → TruthState → Model
  | [], n, v => [(n, v)]
  | (k, w) :: rest, n, v =>
      if k = n then (k, v) :: rest else (k, w) :: modelSet rest n v

/-- Python set insertion with `Literal.__eq__` (name-only): adding a
literal whose name is already present keeps the existing element. -/
def setAdd (s : List Literal) (l : Literal) : List Literal :=
  if s.any fun x => x.name = l.name then s else s ++ [l]

/-- A Python set literal `{l1, l2, ...}`: the elements are inserted left
to right, so a later literal with an already-present name is dropped. -/
def pySetOfList (ls : List Literal) : List Literal :=
  ls.foldl setAdd []

/-- The loop body of `clauseSatisfied`, with the `clause_has_free` flag
threaded through.  A literal absent from the model is skipped (its whole
block is guarded by `if literal in model`); a `'Free'` entry sets the
flag; a positive literal returns `True` when the state is `True`; a
negative literal returns `True` when the state is `False`; otherwise the
scan continues.  After the loop: `None` if the flag is set, else
`False`. -/
def clauseScan (model : Model) : Bool → List Literal → Option Bool
  | clause_has_free, [] => if clause_has_free then none else some Bool.false
  | clause_has_free, literal :: rest =>
      match modelLookup model literal.name with
      | none => clauseScan model clause_has_free rest
      | some tested =>
          if tested = TruthState.free then
            clauseScan model Bool.true rest
          else if literal.sign then
            if tested = TruthState.true then some Bool.true
            else clauseScan model clause_has_free rest
          else
            if tested = TruthState.false then some Bool.true
            else clauseScan model clause_has_free rest

/-- The notebook's `clauseSatisfied(clause, model)`: Python `True`,
`None`, `False` become `some true`, `none`, `some false`. -/
def clauseSatisfied (clause : Clause) (model : Model) : Option Bool :=
  clauseScan model Bool.false clause

/-- The notebook's `QueueImportance` enum.  It is a plain `Enum`, so its
members support `==` but raise `TypeError` on `<`. -/
inductive QueueImportance where
  | PURE
  | UNIT
  | REST
deriving DecidableEq, Repr

/-- A heap key `(QueueImportance, -count)`. -/
abbrev HeapKey := QueueImportance × Int

/-- A heap entry `((QueueImportance, -count), literal)`. -/
abbrev HeapEntry := HeapKey × Literal

/-- The `symbols` heap. -/
abbrev Heap := List HeapEntry

/-- Runtime failures of the Python program, plus fuel exhaustion of the
embedded recursion (shown unreachable by `DPLL_no_fuel_error`). -/
inductive DErr where
  | typeError
  | outOfFuel
deriving DecidableEq, Repr

/-- Python tuple comparison on `(QueueImportance, -count)` keys: equal
first components fall through to the integer counts; distinct
`QueueImportance` members are compared with `<`, which a plain `Enum`
does not define, raising `TypeError`. -/
def keyLt (k1 k2 : HeapKey) : Except DErr Bool :=
  if k1.1 = k2.1 then Except.ok (decide (k1.2 < k2.2))
  else Except.error DErr.typeError

/-- Python tuple comparison on `((class, -count), literal)` heap
entries: equal keys fall through to `Literal.__lt__`, which compares the
names as strings; distinct keys are compared via `keyLt`. -/
def entryLt (e1 e2 : HeapEntry) : Except DErr Bool :=
  if e1.1 = e2.1 then Except.ok (decide (e1.2.name < e2.2.name))
  else keyLt e1.1 e2.1

/-- `heapq.heappush` on the sorted-list representation: ordered
insertion with the lazy, fallible entry comparison (see the module
comment for why this is observationally equal to the binary heap). -/
def heapPush : Heap → HeapEntry → Except DErr Heap
  | [], e => Except.ok [e]
  | x :: xs, e =>
      match entryLt e x with
      | Except.error err => Except.error err
      | Except.ok Bool.true => Except.ok (e :: x :: xs)
      | Except.ok Bool.false =>
          match heapPush xs e with
          | Except.error err => Except.error err
          | Except.ok t => Except.ok (x :: t)

/-- The three mutable-state pieces built by the ranking pass of
`DPLLSatisfiable`: `symbols_ranking` (literal, occurrence count) in dict
insertion order, `pure_symbols` (signs seen per name, as a
(positive-seen, negative-seen) pair), and `unit_clauses`. -/
structure RankState where
  ranking : List (Literal × Nat)
  pure_symbols : List (String × (Bool × Bool))
  unit_clauses : List String
deriving Repr

/-- `symbols_ranking[literal] += 1`: a `defaultdict(int)` keyed by the
literal (hence by name); the first-seen literal object stays the key. -/
def bump : List (Literal × Nat) → Literal → List (Literal × Nat)
  | [], l => [(l, 1)]
  | (k, n) :: rest, l =>
      if k.name = l.name then (k, n + 1) :: rest else (k, n) :: bump rest l

/-- `pure_symbols[literal].add(literal.sign)` (creating the entry
first if absent): record that this sign was seen for this name. -/
def addSign : List (String × (Bool × Bool)) → Literal → List (String × (Bool × Bool))
  | [], l =>
      [(l.name, if l.sign then (Bool.true, Bool.false) else (Bool.false, Bool.true))]
  | (k, s) :: rest, l =>
      if k = l.name then
        (k, if l.sign then (Bool.true, s.2) else (s.1, Bool.true)) :: rest
      else (k, s) :: addSign rest l

/-- One literal of the ranking loop body. -/
def scanLiteral (st : RankState) (l : Literal) : RankState :=
  { st with
    ranking := bump st.ranking l
    pure_symbols := addSign st.pure_symbols l }

/-- One clause of the ranking loop.  The source line
`unit_clauses.union(clause)` calls `set.union`, which returns a fresh
set that is never assigned, so `unit_clauses` is left unchanged even for
clauses of length 1; the length test is kept here to mirror the
source. -/
def scanClause (st : RankState) (c : Clause) : RankState :=
  let st1 := if c.length = 1 then { st with unit_clauses := st.unit_clauses } else st
  c.foldl scanLiteral st1

/-- Number of distinct signs recorded for a symbol: the Python
`len(pure_symbols[literal])`. -/
def signCount (p : Bool × Bool) : Nat :=
  (if p.1 then 1 else 0) + (if p.2 then 1 else 0)

/-- Lookup in `pure_symbols`.  A literal counted in `symbols_ranking`
always has an entry (both are updated together), so the `(false, false)`
default of `getD` is never consulted. -/
def signsLookup : List (String × (Bool × Bool)) → String → Bool × Bool
  | [], _ => (Bool.false, Bool.false)
  | (k, s) :: rest, n => if k = n then s else signsLookup rest n

/-- The classification branch of the heap-building loop:
`(PURE, -cnt)` if only one sign was seen for the name, else
`(REST, -cnt)` if the literal is not in `unit_clauses`, else
`(UNIT, -cnt)`. -/
def rankKey (pure_symbols : List (String × (Bool × Bool)))
    (unit_clauses : List String) (literal : Literal) (cnt : Nat) : HeapKey :=
  if signCount (signsLookup pure_symbols literal.name) = 1 then
    (QueueImportance.PURE, -(cnt : Int))
  else if ¬ unit_clauses.contains literal.name then
    (QueueImportance.REST, -(cnt : Int))
  else
    (QueueImportance.UNIT, -(cnt : Int))

/-- The heap-building loop of `DPLLSatisfiable`: for each
`(literal, cnt)` of `symbols_ranking` in dict order, push the entry
`(rankKey .., literal)` onto the heap. -/
def buildHeap (pure_symbols : List (String × (Bool × Bool)))
    (unit_clauses : List String) :
    List (Literal × Nat) → Heap → Except DErr Heap
  | [], symbols => Except.ok symbols
  | (literal, cnt) :: rest, symbols =>
      match heapPush symbols (rankKey pure_symbols unit_clauses literal cnt, literal) with
      | Except.error e => Except.error e
      | Except.ok symbols1 => buildHeap pure_symbols unit_clauses rest symbols1

/-- The ranking pass of `DPLLSatisfiable`: one fold over the kb. -/
def symbolsRanking (kb : List Clause) : RankState :=
  kb.foldl scanClause { ranking := [], pure_symbols := [], unit_clauses := [] }

/-- The `symbols` heap built by `DPLLSatisfiable`, including the
`TypeError` raised by `heapq` as soon as entries of two distinct
`QueueImportance` classes are compared. -/
def rankSymbols (kb : List Clause) : Except DErr Heap :=
  let st := symbolsRanking kb
  buildHeap st.pure_symbols st.unit_clauses st.ranking []

/-- `model = {symbol: 'Free' for symbol in symbols_ranking.keys()}`. -/
def initialModel (kb : List Clause) : Model :=
  (symbolsRanking kb).ranking.map fun p => (p.1.name, TruthState.free)

/-- Outcome of the clause-evaluation loop at the top of `DPLL`:
`return False, model`, `return True, model`, or falling through with the
collected `unsatisfied_clauses`. -/
inductive LoopResult where
  | retFalse
  | retTrue
  | fallthrough (unsatisfied : List Clause)
deriving DecidableEq, Repr

/-- The clause loop of `DPLL`.  For each clause: `False` returns
immediately; `None` appends to `unsatisfied_clauses`; then, while the
running `unsatisfied_clauses` list is still empty, a satisfied clause
triggers `return True, model` without scanning the rest.  Note the
loop's success return is the only one: when the clause list itself is
empty the loop body never runs and control falls through. -/
def evalLoop (model : Model) : List Clause → List Clause → LoopResult
  | acc, [] => LoopResult.fallthrough acc
  | acc, clause :: rest =>
      match clauseSatisfied clause model with
      | some Bool.false => LoopResult.retFalse
      | none => evalLoop model (acc ++ [clause]) rest
      | some Bool.true =>
          if acc.isEmpty then LoopResult.retTrue else evalLoop model acc rest

/-- The recursive `DPLL(clauses, symbols, model)`.  The first argument
is fuel for the recursion (see `DPLL_no_fuel_error`).  The result is the
Python return value `(satisfiable, model)` together with the final
states of the two objects the call mutates in place (`symbols`,
`model`) and of the `clauses` list it only reads; the second recursive
call receives the `unsatisfied_clauses` object as left by the first
(`u1`), exactly as the shared Python object would be. -/
def DPLL : Nat → List Clause → Heap → Model →
    Except DErr (Bool × Model × Heap × List Clause)
  | 0, _, _, _ => Except.error DErr.outOfFuel
  | fuel + 1, clauses, symbols, model =>
      match evalLoop model [] clauses with
      | LoopResult.retFalse => Except.ok (Bool.false, model, symbols, clauses)
      | LoopResult.retTrue => Except.ok (Bool.true, model, symbols, clauses)
      | LoopResult.fallthrough unsatisfied =>
          match symbols with
          | [] => Except.ok (Bool.false, model, [], clauses)
          | (cnt, P) :: rest =>
              match DPLL fuel unsatisfied rest (modelSet model P.name TruthState.true) with
              | Except.error e => Except.error e
              | Except.ok (sat1, m1, h1, u1) =>
                  if sat1 then Except.ok (Bool.true, m1, h1, clauses)
                  else
                    match DPLL fuel u1 h1 (modelSet m1 P.name TruthState.false) with
                    | Except.error e => Except.error e
                    | Except.ok (sat2, m2, h2, _) =>
                        if sat2 then Except.ok (Bool.true, m2, h2, clauses)
                        else
                          match heapPush h2 (cnt, P) with
                          | Except.error e => Except.error e
                          | Except.ok h3 =>
                              Except.ok
                                (Bool.false, modelSet m2 P.name TruthState.free,
                                  h3, clauses)

/-- `DPLLSatisfiable(kb)` with the full final state: the Python return
value `(satisfiable, model)` plus the final `symbols` heap and the final
state of the `kb` list object.  The fuel `symbols.length + 1` is enough
(`DPLL_no_fuel_error`). -/
def DPLLState (kb : List Clause) :
    Except DErr (Bool × Model × Heap × List Clause) :=
  match rankSymbols kb with
  | Except.error e => Except.error e
  | Except.ok symbols => DPLL (symbols.length + 1) kb symbols (initialModel kb)

/-- The notebook's entry point `DPLLSatisfiable(kb)`: the
`(satisfiable, model)` pair it returns. -/
def DPLLSatisfiable (kb : List Clause) : Except DErr (Bool × Model) :=
  (DPLLState kb).map fun r => (r.1, r.2.1)

/-- A literal made true by the model: a positive literal whose symbol is
committed `True`, or a negative one whose symbol is committed `False`. -/
def litSat (model : Model) (l : Literal) : Prop :=
  modelLookup model l.name =
    some (if l.sign then TruthState.true else TruthState.false)

/-- A literal whose symbol is still `Free` in the model. -/
def litFree (model : Model) (l : Literal) : Prop :=
  modelLookup model l.name = some TruthState.free

/-- The symbol names stored in a heap. -/
def heapNames (h : Heap) : List String :=
  h.map fun e => e.2.name

/-- Every symbol still on the heap is `Free` in the model — the
invariant `DPLL` maintains between the branching queue and the model. -/
def heapFree (m : Model) (h : Heap) : Prop :=
  ∀ e ∈ h, modelLookup m e.2.name = some TruthState.free

/-- The symbol names keyed by `symbols_ranking`, in dict order. -/
def rankingNames (r : List (Literal × Nat)) : List String :=
  r.map fun p => p.1.name

/-! Concrete literals used by the test knowledge bases below. -/

/-- The literal `A = Literal("A")`. -/
def posA : Literal := ⟨"A", Bool.true⟩

/-- The literal `-A`. -/
def negA : Literal := ⟨"A", Bool.false⟩

/-- The literal `B = Literal("B")`. -/
def posB : Literal := ⟨"B", Bool.true⟩

/-- The literal `-B`. -/
def negB : Literal := ⟨"B", Bool.false⟩

/-- The knowledge base `[{A}, {-A}]`. -/
def kbAnotA : List Clause := [[posA], [negA]]

/-- C1: the spec claims `kb = [{A}, {-A}]` yields `(false, {A: Free})`;
the code instead returns `(True, {A: True})`.  With `model[A] = True`,
the first clause `{A}` is satisfied while `unsatisfied_clauses` is still
empty, and the mid-loop check `if not unsatisfied_clauses: return True,
model` fires before the falsified clause `{-A}` is ever scanned. -/
theorem c1_unsat_kb_reported_satisfiable :
    DPLLSatisfiable kbAnotA =
      Except.ok (Bool.true, [("A", TruthState.true)]) := by rfl

/-- C2: the spec claims every clause of a kb reported satisfiable
evaluates to `Satisfied` under the returned model; on `[{A}, {-A}]` the
code returns `(True, {A: True})`, yet `clauseSatisfied({-A}, {A: True})`
is `False` (Falsified), because the success return fires mid-scan. -/
theorem c2_success_with_falsified_clause :
    DPLLSatisfiable kbAnotA =
      Except.ok (Bool.true, [("A", TruthState.true)]) ∧
    clauseSatisfied [negA] [("A", TruthState.true)] = some Bool.false := by
  exact ⟨by rfl, by rfl⟩

/-- C3: the spec claims `DPLLSatisfiable` never raises; on
`kb = [{A, B}, {-B}]` the symbol `A` is PURE and `B` is REST, and the
second `heappush` compares `(QueueImportance.PURE, -1)` with
`(QueueImportance.REST, -2)`.  `QueueImportance` is a plain `Enum`
without `__lt__`, so the comparison raises `TypeError`. -/
theorem c3_heap_comparison_raises :
    DPLLSatisfiable [[posA, posB], [negB]] = Except.error DErr.typeError := by
  rfl

/-- C4: the spec claims PURE symbols are decided before REST symbols
whenever both classes are present; but any kb containing both classes
raises `TypeError` while the heap is being built (plain-`Enum` keys are
unordered), before any symbol is popped or decided.  Here `A` is PURE
and `B` is REST. -/
theorem c4_mixed_classes_crash_before_branching :
    DPLLSatisfiable [[posA], [posB], [negB]] = Except.error DErr.typeError := by
  rfl

/-- C6: the spec claims the empty kb returns `(true, emptyModel)`; the
code returns `(False, {})`: with no clauses the evaluation loop never
runs, so its internal `return True, model` is never reached, the symbol
queue is empty, and the function falls through to its default
`satisfiable = False`. -/
theorem c6_empty_kb_returns_false :
    DPLLSatisfiable [] = Except.ok (Bool.false, ([] : Model)) := by rfl

/-- C7: the spec claims a non-PURE symbol occurring in a unit clause of
the original kb is classified UNIT; in the code
`unit_clauses.union(clause)` discards the union it builds, so
`unit_clauses` stays empty and every non-PURE symbol lands in REST.  In
`[{A}, {-A}]` the symbol `A` occurs in two unit clauses with both signs,
yet its heap entry is `((REST, -2), A)`. -/
theorem c7_unit_symbol_classified_rest :
    rankSymbols kbAnotA =
      Except.ok [((QueueImportance.REST, (-2 : Int)), posA)] := by rfl

/-- C9 counterexample: the spec claims a clause holding both polarities
of one symbol is never Falsified and is Satisfied once the symbol is
committed either way.  But `Literal.__eq__` ignores the sign, so the
Python set `{A, -A}` keeps only the first literal `A`; committing
`A = False` then falsifies the clause. -/
theorem c9_both_polarities_clause_falsified :
    pySetOfList [posA, negA] = [posA] ∧
    clauseSatisfied (pySetOfList [posA, negA]) [("A", TruthState.false)] =
      some Bool.false := by
  exact ⟨by rfl, by rfl⟩

/-! Dictionary (association-list) lemmas for the model. -/

/-- Updating a key and reading it back gives the written value. -/
theorem modelLookup_modelSet_self (m : Model) (k : String) (v : TruthState) :
    modelLookup (modelSet m k v) k = some v := by
  induction m with
  | nil => simp [modelSet, modelLookup]
  | cons p rest ih =>
    obtain ⟨k', w⟩ := p
    by_cases h : k' = k
    · subst h; simp [modelSet, modelLookup]
    · simp [modelSet, modelLookup, h, ih]

/-- Updating one key leaves every other key's value unchanged. -/
theorem modelLookup_modelSet_ne (m : Model) {k n : String} (v : TruthState)
    (h : n ≠ k) : modelLookup (modelSet m k v) n = modelLookup m n := by
  have hkn : k ≠ n := fun he => h he.symm
  induction m with
  | nil => simp [modelSet, modelLookup, hkn]
  | cons p rest ih =>
    obtain ⟨k', w⟩ := p
    by_cases hk : k' = k
    · subst hk
      simp [modelSet, modelLookup, hkn]
    · by_cases hn : k' = n
      · simp [modelSet, modelLookup, hk, hn, h]
      · simp [modelSet, modelLookup, hk, hn, ih]

/-- Two successive writes to the same key collapse to the second. -/
theorem modelSet_modelSet_same (m : Model) (k : String) (v w : TruthState) :
    modelSet (modelSet m k v) k w = modelSet m k w := by
  induction m with
  | nil => simp [modelSet]
  | cons p rest ih =>
    obtain ⟨k', u⟩ := p
    by_cases h : k' = k
    · subst h; simp [modelSet]
    · simp [modelSet, h, ih]

/-- Writing back the value a key already holds is the identity. -/
theorem modelSet_lookup_id (m : Model) {k : String} {v : TruthState}
    (h : modelLookup m k = some v) : modelSet m k v = m := by
  induction m with
  | nil => simp [modelLookup] at h
  | cons p rest ih =>
    obtain ⟨k', w⟩ := p
    by_cases hk : k' = k
    · subst hk
      simp [modelLookup] at h
      simp [modelSet, h]
    · simp [modelLookup, hk] at h
      simp [modelSet, hk, ih h]

/-! Heap lemmas. -/

/-- A successful `heappush` holds exactly the old entries plus the new
one. -/
theorem heapPush_perm : ∀ (h : Heap) (e : HeapEntry) (h' : Heap),
    heapPush h e = Except.ok h' → List.Perm h' (e :: h) := by
  intro h
  induction h with
  | nil =>
    intro e h' he
    simp [heapPush] at he
    subst he
    exact List.Perm.refl _
  | cons x xs ih =>
    intro e h' he
    simp only [heapPush] at he
    cases hc : entryLt e x with
    | error err => rw [hc] at he; cases he
    | ok b =>
      rw [hc] at he
      cases b with
      | true =>
        simp at he
        subst he
        exact List.Perm.refl _
      | false =>
        simp at he
        cases hp : heapPush xs e with
        | error err => rw [hp] at he; cases he
        | ok t =>
          rw [hp] at he
          simp at he
          subst he
          exact (List.Perm.cons x (ih e t hp)).trans (List.Perm.swap e x xs)

/-- A successful `heappush` grows the heap by one entry. -/
theorem heapPush_length (h : Heap) (e : HeapEntry) (h' : Heap)
    (he : heapPush h e = Except.ok h') : h'.length = h.length + 1 :=
  (heapPush_perm h e h' he).length_eq

/-- The only exception `heappush` can raise is the `TypeError` of
comparing two distinct plain-`Enum` members. -/
theorem heapPush_error : ∀ (h : Heap) (e : HeapEntry) (err : DErr),
    heapPush h e = Except.error err → err = DErr.typeError := by
  intro h
  induction h with
  | nil => intro e err he; simp [heapPush] at he
  | cons x xs ih =>
    intro e err he
    simp only [heapPush] at he
    cases hc : entryLt e x with
    | error e2 =>
      rw [hc] at he
      simp at he
      have : e2 = DErr.typeError := by
        simp only [entryLt, keyLt] at hc
        split at hc
        · cases hc
        · split at hc
          · cases hc
          · cases hc; rfl
      exact he ▸ this
    | ok b =>
      rw [hc] at he
      cases b with
      | true => simp at he
      | false =>
        simp at he
        cases hp : heapPush xs e with
        | error e2 =>
          rw [hp] at he
          simp at he
          exact he ▸ ih e e2 hp
        | ok t => rw [hp] at he; simp at he

/-! Lemmas about the recursive `DPLL`. -/

/-- `DPLL` never writes into the clause list it is handed: each return
site carries the caller's `clauses` object back unchanged. -/
theorem DPLL_clauses_eq : ∀ (fuel : Nat) (c : List Clause) (h : Heap) (m : Model)
    (b : Bool) (m' : Model) (h' : Heap) (c' : List Clause),
    DPLL fuel c h m = Except.ok (b, m', h', c') → c' = c := by
  intro fuel
  induction fuel with
  | zero => intro c h m b m' h' c' hd; simp [DPLL] at hd
  | succ f ih =>
    intro c h m b m' h' c' hd
    simp only [DPLL] at hd
    cases hev : evalLoop m [] c with
    | retFalse => rw [hev] at hd; simp at hd; exact hd.2.2.2.symm
    | retTrue => rw [hev] at hd; simp at hd; exact hd.2.2.2.symm
    | fallthrough unsat =>
      rw [hev] at hd
      dsimp only at hd
      cases h with
      | nil => simp at hd; exact hd.2.2.2.symm
      | cons e rest =>
        obtain ⟨cnt, P⟩ := e
        dsimp only at hd
        cases hrec1 : DPLL f unsat rest (modelSet m P.name TruthState.true) with
        | error e1 => rw [hrec1] at hd; simp at hd
        | ok r1 =>
          obtain ⟨sat1, m1, h1, u1⟩ := r1
          rw [hrec1] at hd
          dsimp only at hd
          cases sat1 with
          | true => simp at hd; exact hd.2.2.2.symm
          | false =>
            simp only [Bool.false_eq_true, if_false] at hd
            cases hrec2 : DPLL f u1 h1 (modelSet m1 P.name TruthState.false) with
            | error e2 => rw [hrec2] at hd; simp at hd
            | ok r2 =>
              obtain ⟨sat2, m2, h2, u2⟩ := r2
              rw [hrec2] at hd
              dsimp only at hd
              cases sat2 with
              | true => simp at hd; exact hd.2.2.2.symm
              | false =>
                simp only [Bool.false_eq_true, if_false] at hd
                cases hpush : heapPush h2 (cnt, P) with
                | error e3 => rw [hpush] at hd; simp at hd
                | ok h3 => rw [hpush] at hd; simp at hd; exact hd.2.2.2.symm

/-- A `DPLL` call that reports unsatisfiable leaves the heap at its
entry size: its own pop is undone by the push-back on the
triple-failure path, and the falsified/exhausted paths touch nothing. -/
theorem DPLL_false_heap_length : ∀ (fuel : Nat) (c : List Clause) (h : Heap)
    (m : Model) (m' : Model) (h' : Heap) (c' : List Clause),
    DPLL fuel c h m = Except.ok (Bool.false, m', h', c') →
    h'.length = h.length := by
  intro fuel
  induction fuel with
  | zero => intro c h m m' h' c' hd; simp [DPLL] at hd
  | succ f ih =>
    intro c h m m' h' c' hd
    simp only [DPLL] at hd
    cases hev : evalLoop m [] c with
    | retFalse => rw [hev] at hd; simp at hd; rw [← hd.2.1]
    | retTrue => rw [hev] at hd; simp at hd
    | fallthrough unsat =>
      rw [hev] at hd
      dsimp only at hd
      cases h with
      | nil => simp at hd; rw [← hd.2.1]
      | cons e rest =>
        obtain ⟨cnt, P⟩ := e
        dsimp only at hd
        cases hrec1 : DPLL f unsat rest (modelSet m P.name TruthState.true) with
        | error e1 => rw [hrec1] at hd; simp at hd
        | ok r1 =>
          obtain ⟨sat1, m1, h1, u1⟩ := r1
          rw [hrec1] at hd
          dsimp only at hd
          cases sat1 with
          | true => simp at hd
          | false =>
            simp only [Bool.false_eq_true, if_false] at hd
            cases hrec2 : DPLL f u1 h1 (modelSet m1 P.name TruthState.false) with
            | error e2 => rw [hrec2] at hd; simp at hd
            | ok r2 =>
              obtain ⟨sat2, m2, h2, u2⟩ := r2
              rw [hrec2] at hd
              dsimp only at hd
              cases sat2 with
              | true => simp at hd
              | false =>
                simp only [Bool.false_eq_true, if_false] at hd
                cases hpush : heapPush h2 (cnt, P) with
                | error e3 => rw [hpush] at hd; simp at hd
                | ok h3 =>
                  rw [hpush] at hd
                  simp at hd
                  rw [← hd.2.1]
                  rw [heapPush_length h2 (cnt, P) h3 hpush,
                    ih _ _ _ _ _ _ hrec2, ih _ _ _ _ _ _ hrec1]
                  simp

/-- With fuel exceeding the queue length — as `DPLLState` supplies — the
fuelled recursion never exhausts its fuel, so fuelling is an artefact of
the embedding, not a behaviour of the program. -/
theorem DPLL_no_fuel_error : ∀ (fuel : Nat) (c : List Clause) (h : Heap) (m : Model),
    h.length < fuel → DPLL fuel c h m ≠ Except.error DErr.outOfFuel := by
  intro fuel
  induction fuel with
  | zero => intro c h m hlt; exact absurd hlt (Nat.not_lt_zero _)
  | succ f ih =>
    intro c h m hlt hd
    simp only [DPLL] at hd
    cases hev : evalLoop m [] c with
    | retFalse => rw [hev] at hd; simp at hd
    | retTrue => rw [hev] at hd; simp at hd
    | fallthrough unsat =>
      rw [hev] at hd
      dsimp only at hd
      cases h with
      | nil => simp at hd
      | cons e rest =>
        obtain ⟨cnt, P⟩ := e
        dsimp only at hd
        have hrest : rest.length < f := by
          simpa using Nat.lt_of_succ_lt_succ hlt
        cases hrec1 : DPLL f unsat rest (modelSet m P.name TruthState.true) with
        | error e1 =>
          rw [hrec1] at hd
          simp at hd
          exact ih _ _ _ hrest (hd ▸ hrec1)
        | ok r1 =>
          obtain ⟨sat1, m1, h1, u1⟩ := r1
          rw [hrec1] at hd
          dsimp only at hd
          cases sat1 with
          | true => simp at hd
          | false =>
            simp only [Bool.false_eq_true, if_false] at hd
            have hh1 : h1.length < f := by
              rw [DPLL_false_heap_length _ _ _ _ _ _ _ hrec1]
              exact hrest
            cases hrec2 : DPLL f u1 h1 (modelSet m1 P.name TruthState.false) with
            | error e2 =>
              rw [hrec2] at hd
              simp at hd
              exact ih _ _ _ hh1 (hd ▸ hrec2)
            | ok r2 =>
              obtain ⟨sat2, m2, h2, u2⟩ := r2
              rw [hrec2] at hd
              dsimp only at hd
              cases sat2 with
              | true => simp at hd
              | false =>
                simp only [Bool.false_eq_true, if_false] at hd
                cases hpush : heapPush h2 (cnt, P) with
                | error e3 =>
                  rw [hpush] at hd
                  simp at hd
                  exact absurd (hd ▸ heapPush_error h2 (cnt, P) e3 hpush) (by simp)
                | ok h3 => rw [hpush] at hd; simp at hd

/-- When `DPLL` reports unsatisfiable it has undone every tentative
commitment: under the queue/model invariant (queued symbol names are
distinct and still `Free` in the model), the model comes back exactly as
it went in and the heap holds the same entries, reordered at most. -/
theorem DPLL_false_frame : ∀ (fuel : Nat) (c : List Clause) (h : Heap) (m : Model)
    (m' : Model) (h' : Heap) (c' : List Clause),
    DPLL fuel c h m = Except.ok (Bool.false, m', h', c') →
    (heapNames h).Nodup → heapFree m h →
    m' = m ∧ List.Perm h' h := by
  intro fuel
  induction fuel with
  | zero => intro c h m m' h' c' hd _ _; simp [DPLL] at hd
  | succ f ih =>
    intro c h m m' h' c' hd hnd hfree
    simp only [DPLL] at hd
    cases hev : evalLoop m [] c with
    | retFalse =>
      rw [hev] at hd
      simp at hd
      exact ⟨hd.1.symm, hd.2.1 ▸ List.Perm.refl _⟩
    | retTrue => rw [hev] at hd; simp at hd
    | fallthrough unsat =>
      rw [hev] at hd
      dsimp only at hd
      cases h with
      | nil =>
        simp at hd
        exact ⟨hd.1.symm, hd.2.1 ▸ List.Perm.refl _⟩
      | cons e rest =>
        obtain ⟨cnt, P⟩ := e
        dsimp only at hd
        have hPfree : modelLookup m P.name = some TruthState.free :=
          hfree _ (List.mem_cons_self _ _)
        have hnd' : P.name ∉ heapNames rest ∧ (heapNames rest).Nodup := by
          rw [show heapNames ((cnt, P) :: rest) = P.name :: heapNames rest from rfl,
            List.nodup_cons] at hnd
          exact hnd
        obtain ⟨hPnot, hndrest⟩ := hnd'
        cases hrec1 : DPLL f unsat rest (modelSet m P.name TruthState.true) with
        | error e1 => rw [hrec1] at hd; simp at hd
        | ok r1 =>
          obtain ⟨sat1, m1, h1, u1⟩ := r1
          rw [hrec1] at hd
          dsimp only at hd
          cases sat1 with
          | true => simp at hd
          | false =>
            simp only [Bool.false_eq_true, if_false] at hd
            have hfree1 : heapFree (modelSet m P.name TruthState.true) rest := by
              intro e he
              have hne : e.2.name ≠ P.name := by
                intro hEq
                exact hPnot (hEq ▸ List.mem_map_of_mem _ he)
              rw [modelLookup_modelSet_ne _ _ hne]
              exact hfree e (List.mem_cons_of_mem _ he)
            obtain ⟨hm1, hp1⟩ := ih _ _ _ _ _ _ hrec1 hndrest hfree1
            cases hrec2 : DPLL f u1 h1 (modelSet m1 P.name TruthState.false) with
            | error e2 => rw [hrec2] at hd; simp at hd
            | ok r2 =>
              obtain ⟨sat2, m2, h2, u2⟩ := r2
              rw [hrec2] at hd
              dsimp only at hd
              cases sat2 with
              | true => simp at hd
              | false =>
                simp only [Bool.false_eq_true, if_false] at hd
                have hnd1 : (heapNames h1).Nodup :=
                  ((hp1.map (fun e : HeapEntry => e.2.name)).nodup_iff).mpr hndrest
                have hfree2 : heapFree (modelSet m1 P.name TruthState.false) h1 := by
                  intro e he
                  have herest : e ∈ rest := hp1.mem_iff.mp he
                  have hne : e.2.name ≠ P.name := by
                    intro hEq
                    exact hPnot (hEq ▸ List.mem_map_of_mem _ herest)
                  rw [modelLookup_modelSet_ne _ _ hne, hm1,
                    modelLookup_modelSet_ne _ _ hne]
                  exact hfree e (List.mem_cons_of_mem _ herest)
                obtain ⟨hm2, hp2⟩ := ih _ _ _ _ _ _ hrec2 hnd1 hfree2
                cases hpush : heapPush h2 (cnt, P) with
                | error e3 => rw [hpush] at hd; simp at hd
                | ok h3 =>
                  rw [hpush] at hd
                  simp at hd
                  obtain ⟨hm', hh', -⟩ := hd
                  constructor
                  · rw [← hm', hm2, hm1, modelSet_modelSet_same,
                      modelSet_modelSet_same]
                    exact modelSet_lookup_id m hPfree
                  · rw [← hh']
                    exact (heapPush_perm h2 (cnt, P) h3 hpush).trans
                      ((hp2.trans hp1).cons _)

/-! Lemmas about the ranking pass. -/

/-- A name present after a bump was the bumped name or already there. -/
theorem mem_rankingNames_bump : ∀ (r : List (Literal × Nat)) (l : Literal)
    (x : String), x ∈ rankingNames (bump r l) → x = l.name ∨ x ∈ rankingNames r := by
  intro r l
  induction r with
  | nil =>
    intro x hx
    simp [bump, rankingNames] at hx
    exact Or.inl hx
  | cons p rest ih =>
    obtain ⟨k, n⟩ := p
    intro x hx
    by_cases hk : k.name = l.name
    · simp only [bump, if_pos hk] at hx
      exact Or.inr hx
    · simp only [bump, if_neg hk] at hx
      rw [show rankingNames ((k, n) :: bump rest l) =
        k.name :: rankingNames (bump rest l) from rfl, List.mem_cons] at hx
      rcases hx with hx | hx
      · refine Or.inr ?_
        rw [show rankingNames ((k, n) :: rest) =
          k.name :: rankingNames rest from rfl, hx]
        exact List.mem_cons_self _ _
      · rcases ih x hx with hx | hx
        · exact Or.inl hx
        · exact Or.inr (by rw [show rankingNames ((k, n) :: rest) =
            k.name :: rankingNames rest from rfl]; exact List.mem_cons_of_mem _ hx)

/-- Bumping a literal keeps the ranked names distinct. -/
theorem rankingNames_bump_nodup : ∀ (r : List (Literal × Nat)) (l : Literal),
    (rankingNames r).Nodup → (rankingNames (bump r l)).Nodup := by
  intro r l
  induction r with
  | nil => intro _; simp [bump, rankingNames]
  | cons p rest ih =>
    obtain ⟨k, n⟩ := p
    intro hnd
    rw [show rankingNames ((k, n) :: rest) = k.name :: rankingNames rest from rfl,
      List.nodup_cons] at hnd
    obtain ⟨hk1, hk2⟩ := hnd
    by_cases hk : k.name = l.name
    · simp only [bump, if_pos hk]
      rw [show rankingNames ((k, n + 1) :: rest) =
        k.name :: rankingNames rest from rfl, List.nodup_cons]
      exact ⟨hk1, hk2⟩
    · simp only [bump, if_neg hk]
      rw [show rankingNames ((k, n) :: bump rest l) =
        k.name :: rankingNames (bump rest l) from rfl, List.nodup_cons]
      refine ⟨?_, ih hk2⟩
      intro hmem
      rcases mem_rankingNames_bump rest l _ hmem with he | hm
      · exact hk he
      · exact hk1 hm

/-- One clause of the ranking loop keeps the ranked names distinct. -/
theorem scanClause_ranking_nodup (st : RankState) (c : Clause)
    (h : (rankingNames st.ranking).Nodup) :
    (rankingNames (scanClause st c).ranking).Nodup := by
  have hlit : ∀ (ls : List Literal) (st' : RankState),
      (rankingNames st'.ranking).Nodup →
      (rankingNames (ls.foldl scanLiteral st').ranking).Nodup := by
    intro ls
    induction ls with
    | nil => intro st' h'; simpa using h'
    | cons l rest ihl =>
      intro st' h'
      simp only [List.foldl]
      exact ihl _ (rankingNames_bump_nodup _ _ h')
  unfold scanClause
  by_cases hc : c.length = 1
  · simp only [if_pos hc]
    exact hlit c _ h
  · simp only [if_neg hc]
    exact hlit c st h

/-- The whole ranking pass keys each symbol name at most once. -/
theorem symbolsRanking_nodup (kb : List Clause) :
    (rankingNames (symbolsRanking kb).ranking).Nodup := by
  suffices h : ∀ (cs : List Clause) (st : RankState),
      (rankingNames st.ranking).Nodup →
      (rankingNames (cs.foldl scanClause st).ranking).Nodup by
    exact h kb _ (by simp [rankingNames])
  intro cs
  induction cs with
  | nil => intro st h; simpa using h
  | cons c rest ih =>
    intro st h
    simp only [List.foldl]
    exact ih _ (scanClause_ranking_nodup st c h)

/-- A successfully built heap holds the accumulated entries plus one
entry per ranked symbol: its names are a permutation of both. -/
theorem buildHeap_names : ∀ (r : List (Literal × Nat))
    (ps : List (String × (Bool × Bool))) (us : List String) (acc : Heap)
    (h' : Heap), buildHeap ps us r acc = Except.ok h' →
    List.Perm (heapNames h') (heapNames acc ++ rankingNames r) := by
  intro r
  induction r with
  | nil =>
    intro ps us acc h' hb
    simp [buildHeap] at hb
    subst hb
    simp [rankingNames]
  | cons p rest ih =>
    obtain ⟨l, cnt⟩ := p
    intro ps us acc h' hb
    simp only [buildHeap] at hb
    cases hp : heapPush acc (rankKey ps us l cnt, l) with
    | error e => rw [hp] at hb; cases hb
    | ok acc1 =>
      rw [hp] at hb
      dsimp only at hb
      have h1 := ih ps us acc1 h' hb
      have h2 : List.Perm (heapNames acc1)
          (l.name :: heapNames acc) :=
        (heapPush_perm acc _ acc1 hp).map (fun e : HeapEntry => e.2.name)
      refine (h1.trans (h2.append_right _)).trans ?_
      rw [show rankingNames ((l, cnt) :: rest) = l.name :: rankingNames rest from rfl]
      exact List.perm_middle.symm

/-- Every symbol name of the initial model build is mapped to `Free`. -/
theorem modelLookup_initial (r : List (Literal × Nat)) (n : String)
    (h : n ∈ rankingNames r) :
    modelLookup (r.map fun p => (p.1.name, TruthState.free)) n =
      some TruthState.free := by
  induction r with
  | nil => simp [rankingNames] at h
  | cons p rest ih =>
    obtain ⟨l, cnt⟩ := p
    by_cases hn : l.name = n
    · simp [modelLookup, hn]
    · rw [show rankingNames ((l, cnt) :: rest) = l.name :: rankingNames rest from rfl,
        List.mem_cons] at h
      rcases h with h | h
      · exact absurd h.symm hn
      · simp [modelLookup, hn, ih h]

/-- C5: if `DPLLSatisfiable` returns `satisfiable = false`, every entry
of the returned model is `Free`.  The initial model is all-`Free`, and
`DPLL_false_frame` shows an unsatisfiable verdict restores the model it
was given, so the returned model is the initial one. -/
theorem c5_unsat_result_model_all_free (kb : List Clause) (m : Model)
    (h : DPLLSatisfiable kb = Except.ok (Bool.false, m)) :
    ∀ p ∈ m, p.2 = TruthState.free := by
  unfold DPLLSatisfiable at h
  cases hs : DPLLState kb with
  | error e => rw [hs] at h; simp [Except.map] at h
  | ok r =>
    rw [hs] at h
    obtain ⟨b, m0, h0, c0⟩ := r
    simp [Except.map] at h
    obtain ⟨hb, hm⟩ := h
    unfold DPLLState at hs
    cases hr : rankSymbols kb with
    | error e => rw [hr] at hs; cases hs
    | ok symbols =>
      rw [hr] at hs
      dsimp only at hs
      have hperm : List.Perm (heapNames symbols)
          (rankingNames (symbolsRanking kb).ranking) := by
        have := buildHeap_names (symbolsRanking kb).ranking
          (symbolsRanking kb).pure_symbols (symbolsRanking kb).unit_clauses
          [] symbols hr
        simpa [heapNames] using this
      have hnd : (heapNames symbols).Nodup :=
        hperm.nodup_iff.mpr (symbolsRanking_nodup kb)
      have hfree : heapFree (initialModel kb) symbols := by
        intro e he
        have : e.2.name ∈ rankingNames (symbolsRanking kb).ranking :=
          hperm.subset (List.mem_map_of_mem _ he)
        exact modelLookup_initial _ _ this
      rw [hb] at hs
      obtain ⟨hm0, -⟩ := DPLL_false_frame _ _ _ _ _ _ _ hs hnd hfree
      intro p hp
      rw [← hm] at hp
      rw [hm0] at hp
      unfold initialModel at hp
      obtain ⟨q, -, hq⟩ := List.mem_map.mp hp
      rw [← hq]

/-- C5 witness: on `kb = [set(), {A}]` the empty clause falsifies the
kb immediately, `DPLLSatisfiable` returns `(False, {A: 'Free'})`, and
the theorem applies. -/
theorem c5_unsat_result_model_all_free_witness :
    ("A", TruthState.free).2 = TruthState.free :=
  c5_unsat_result_model_all_free [[], [posA]] [("A", TruthState.free)] (by rfl)
    ("A", TruthState.free) (List.mem_singleton.mpr rfl)

/-- C10: `DPLLSatisfiable` never modifies its input knowledge base:
whatever state it finishes in, the `kb` list object it was handed comes
back holding the same clauses, in order, each with the same literals.
The search reads `kb` (and the fresh `unsatisfied_clauses` lists built
from it) but writes only the model and the symbol heap. -/
theorem c10_kb_unchanged (kb : List Clause)
    (r : Bool × Model × Heap × List Clause)
    (h : DPLLState kb = Except.ok r) : r.2.2.2 = kb := by
  unfold DPLLState at h
  cases hr : rankSymbols kb with
  | error e => rw [hr] at h; cases h
  | ok symbols =>
    rw [hr] at h
    dsimp only at h
    obtain ⟨b, m, hp, c⟩ := r
    exact DPLL_clauses_eq _ _ _ _ _ _ _ _ h

/-- C10 witness: on `kb = [{A}]` the search succeeds and hands back the
kb object holding the same single clause. -/
theorem c10_kb_unchanged_witness : ([[posA]] : List Clause) = [[posA]] :=
  c10_kb_unchanged [[posA]]
    (Bool.true, [("A", TruthState.true)], [], [[posA]]) (by rfl)

/-- Full characterisation of the `clauseSatisfied` scan, with the
`clause_has_free` flag generalised. -/
theorem clauseScan_spec (model : Model) : ∀ (cl : List Literal) (flag : Bool),
    (clauseScan model flag cl = some Bool.true ↔ ∃ l ∈ cl, litSat model l) ∧
    (clauseScan model flag cl = none ↔
      (¬ ∃ l ∈ cl, litSat model l) ∧
        (flag = Bool.true ∨ ∃ l ∈ cl, litFree model l)) ∧
    (clauseScan model flag cl = some Bool.false ↔
      (¬ ∃ l ∈ cl, litSat model l) ∧ flag = Bool.false ∧
        ¬ ∃ l ∈ cl, litFree model l) := by
  intro cl
  induction cl with
  | nil =>
    intro flag
    cases flag <;> simp [clauseScan]
  | cons l rest ih =>
    intro flag
    cases hl : modelLookup model l.name with
    | none =>
      have hsat : ¬ litSat model l := by simp [litSat, hl]
      have hfr : ¬ litFree model l := by simp [litFree, hl]
      have hred : clauseScan model flag (l :: rest) = clauseScan model flag rest := by
        simp only [clauseScan, hl]
      refine ⟨?_, ?_, ?_⟩
      · rw [hred, (ih flag).1]; simp [hsat]
      · rw [hred, (ih flag).2.1]; simp [hsat, hfr]
      · rw [hred, (ih flag).2.2]; simp [hsat, hfr]
    | some tested =>
      cases tested with
      | free =>
        have hsat : ¬ litSat model l := by
          cases hsg : l.sign <;> simp [litSat, hl, hsg]
        have hfr : litFree model l := by simp [litFree, hl]
        have hred : clauseScan model flag (l :: rest) =
            clauseScan model Bool.true rest := by
          simp [clauseScan, hl]
        refine ⟨?_, ?_, ?_⟩
        · rw [hred, (ih Bool.true).1]; simp [hsat]
        · rw [hred, (ih Bool.true).2.1]; simp [hsat, hfr]
        · rw [hred, (ih Bool.true).2.2]; simp [hsat, hfr]
      | true =>
        cases hsg : l.sign with
        | true =>
          have hsat : litSat model l := by simp [litSat, hl, hsg]
          have hred : clauseScan model flag (l :: rest) = some Bool.true := by
            simp [clauseScan, hl, hsg]
          refine ⟨?_, ?_, ?_⟩ <;> rw [hred] <;> simp [hsat]
        | false =>
          have hsat : ¬ litSat model l := by simp [litSat, hl, hsg]
          have hfr : ¬ litFree model l := by simp [litFree, hl]
          have hred : clauseScan model flag (l :: rest) =
              clauseScan model flag rest := by
            simp [clauseScan, hl, hsg]
          refine ⟨?_, ?_, ?_⟩
          · rw [hred, (ih flag).1]; simp [hsat]
          · rw [hred, (ih flag).2.1]; simp [hsat, hfr]
          · rw [hred, (ih flag).2.2]; simp [hsat, hfr]
      | false =>
        cases hsg : l.sign with
        | false =>
          have hsat : litSat model l := by simp [litSat, hl, hsg]
          have hred : clauseScan model flag (l :: rest) = some Bool.true := by
            simp [clauseScan, hl, hsg]
          refine ⟨?_, ?_, ?_⟩ <;> rw [hred] <;> simp [hsat]
        | true =>
          have hsat : ¬ litSat model l := by simp [litSat, hl, hsg]
          have hfr : ¬ litFree model l := by simp [litFree, hl]
          have hred : clauseScan model flag (l :: rest) =
              clauseScan model flag rest := by
            simp [clauseScan, hl, hsg]
          refine ⟨?_, ?_, ?_⟩
          · rw [hred, (ih flag).1]; simp [hsat]
          · rw [hred, (ih flag).2.1]; simp [hsat, hfr]
          · rw [hred, (ih flag).2.2]; simp [hsat, hfr]
/-- C8: for every clause and every model assigning a `TruthState` to
each of the clause's symbols, `clauseSatisfied` returns `True` iff some
literal's polarity matches its symbol's committed state, else `None`
(Pending) iff some literal's symbol is `Free`, else `False` (Falsified)
— and the empty clause always evaluates to `False`.  The function is a
pure Lean function of its two arguments, so it has no side effects on
them. -/
theorem c8_clauseSatisfied_characterization (clause : Clause) (model : Model)
    (h : ∀ l ∈ clause, (modelLookup model l.name).isSome) :
    (clauseSatisfied clause model = some Bool.true ↔
      ∃ l ∈ clause, litSat model l) ∧
    (clauseSatisfied clause model = none ↔
      (¬ ∃ l ∈ clause, litSat model l) ∧ ∃ l ∈ clause, litFree model l) ∧
    (clauseSatisfied clause model = some Bool.false ↔
      (¬ ∃ l ∈ clause, litSat model l) ∧ ¬ ∃ l ∈ clause, litFree model l) ∧
    clauseSatisfied [] model = some Bool.false := by
  have hs := clauseScan_spec model clause Bool.false
  refine ⟨hs.1, ?_, ?_, rfl⟩
  · rw [show clauseSatisfied clause model =
      clauseScan model Bool.false clause from rfl, hs.2.1]
    simp
  · rw [show clauseSatisfied clause model =
      clauseScan model Bool.false clause from rfl, hs.2.2]
    simp

/-- C8 witness: on the clause `{A}` and the model `{A: True}`, the
hypothesis holds and the characterisation yields `Satisfied`. -/
theorem c8_clauseSatisfied_characterization_witness :
    clauseSatisfied [posA] [("A", TruthState.true)] = some Bool.true :=
  (c8_clauseSatisfied_characterization [posA] [("A", TruthState.true)]
      (by intro l hl; rw [List.mem_singleton] at hl; rw [hl]; rfl)).1.mpr
    ⟨posA, List.mem_singleton.mpr rfl, rfl⟩

/-- C9 amended: constructing a clause from both polarities of one
symbol collapses it, through the name-only equality of `Literal`, to a
clause holding just the first-inserted literal; the clause is then
evaluated by the standard rules for that literal alone — Pending while
the symbol is `Free`, Satisfied when the committed state matches the
first literal's polarity, Falsified when it is committed the other
way. -/
theorem c9_collapsed_clause_eval (n : String) (s : Bool) (st : TruthState) :
    pySetOfList [Literal.mk n s, Literal.mk n (!s)] = [Literal.mk n s] ∧
    clauseSatisfied (pySetOfList [Literal.mk n s, Literal.mk n (!s)]) [(n, st)] =
      (if st = TruthState.free then none
       else if st = (if s then TruthState.true else TruthState.false) then
         some Bool.true
       else some Bool.false) := by
  have hset : pySetOfList [Literal.mk n s, Literal.mk n (!s)] =
      [Literal.mk n s] := by
    simp [pySetOfList, setAdd]
  refine ⟨hset, ?_⟩
  rw [hset]
  cases st <;> cases s <;>
    simp [clauseSatisfied, clauseScan, modelLookup]

end DPLLExample
